import Mathlib

/-!
Verification of the natural-language specification of `FileOrganizer.py`
against a shallow embedding of its code.

The program classifies file names by extension (`EXT_MAP`,
`MULTI_EXTENSIONS`, `get_extension_lower`, `resolve_category`), renames
colliding destinations (`make_unique_target`), and walks a directory tree
with an explicit stack, moving every regular file into a category folder
directly under the root (`organize_iterative`).

Modelling conventions:
* Python strings are `String`; all character-level work happens on
  `String.data` (`List Char`).  `str.lower()` is `Char.toLower` mapped over
  the name (the names involved are ASCII).
* Filesystem paths are lists of path components (`List String`), so that
  path equality is component-wise and needs no separator reasoning.
* A directory tree is an `Entry` tree.  Fallible operations are driven by
  oracles stored on the entries: `listFail` is the error message raised by
  `iterdir`, `moveFail` the message raised by `shutil.move`, `none` meaning
  success.
* The unbounded `while True` of `make_unique_target` and the `while stack`
  of `organize_iterative` are given explicit fuel; the fuel supplied is
  proved sufficient (`searchFree` via a pigeonhole argument, the walker via
  the `Entry.size` measure).
-/

set_option maxHeartbeats 1000000

/-! ## String helpers (Python string/pathlib primitives) -/

/-- Python `str.lower()` on an (ASCII) name: core `Char.toLower` mapped over
the characters. -/
def lowerStr (s : String) : String := ⟨s.data.map Char.toLower⟩

/-- Python `str.endswith`, on the underlying character lists. -/
def strEndsWith (s t : String) : Bool :=
  decide (t.data.length ≤ s.data.length) &&
    s.data.drop (s.data.length - t.data.length) == t.data

/-- Python `name.startswith(".")`. -/
def startsWithDot (s : String) : Bool :=
  match s.data with
  | [] => false
  | c :: _ => c == '.'

/-- Index of the last occurrence of `ch` in `l` (Python `str.rfind`, with
`none` standing for the `-1` "not found" result). -/
def rlastIdx (l : List Char) (ch : Char) : Option Nat :=
  match l with
  | [] => none
  | a :: as =>
    match rlastIdx as ch with
    | some i => some (i + 1)
    | none => if a = ch then some 0 else none

/-- `pathlib.PurePath.suffix`: the name from its last dot on, provided that
dot is neither the leading nor the final character; `""` otherwise. -/
def pySuffix (name : String) : String :=
  match rlastIdx name.data '.' with
  | some i => if 0 < i ∧ i < name.data.length - 1 then ⟨name.data.drop i⟩ else ""
  | none => ""

/-- `pathlib.PurePath.stem`: the name up to (excluding) its last dot, under
the same proviso as `pySuffix`; the whole name otherwise. -/
def pyStem (name : String) : String :=
  match rlastIdx name.data '.' with
  | some i => if 0 < i ∧ i < name.data.length - 1 then ⟨name.data.take i⟩ else name
  | none => name

/-! ## Classifier (`EXT_MAP`, `MULTI_EXTENSIONS`, `get_extension_lower`,
`resolve_category`) -/

/-- The static extension table `EXT_MAP` of the source, as an association
list in source order.  Python `dict` lookup (the keys are distinct) is
modelled by `List.find?` on the key. -/
def EXT_MAP : List (String × String) := [
  (".jpg", "Images"), (".jpeg", "Images"), (".png", "Images"), (".gif", "Images"),
  (".bmp", "Images"), (".tiff", "Images"), (".svg", "Images"),
  (".pdf", "Documents"), (".doc", "Documents"), (".docx", "Documents"),
  (".txt", "Documents"), (".odt", "Documents"), (".rtf", "Documents"),
  (".xls", "Documents"), (".xlsx", "Documents"), (".ppt", "Documents"), (".pptx", "Documents"),
  (".mp3", "Audio"), (".wav", "Audio"), (".aac", "Audio"), (".flac", "Audio"), (".ogg", "Audio"),
  (".mp4", "Video"), (".mkv", "Video"), (".mov", "Video"), (".avi", "Video"), (".wmv", "Video"),
  (".zip", "Archives"), (".rar", "Archives"), (".7z", "Archives"), (".tar", "Archives"), (".gz", "Archives"),
  (".py", "Code"), (".js", "Code"), (".java", "Code"), (".c", "Code"), (".cpp", "Code"),
  (".html", "Code"), (".css", "Code"), (".sh", "Code")]

/-- `MULTI_EXTENSIONS` of the source.  The second entry really is
`"tar.bz2"` there, without a leading dot.  The source iterates a Python
`set` in unspecified order; no name can end with both entries (their last
seven characters differ), so a fixed list order is an equivalent model. -/
def MULTI_EXTENSIONS : List String := [".tar.gz", "tar.bz2"]

/-- `get_extension_lower` from the source: lowercase the whole name, return
the first multi-part extension the lowered name ends with, and otherwise
the lowercased conventional final suffix. -/
def get_extension_lower (name : String) : String :=
  match MULTI_EXTENSIONS.find? (fun t => strEndsWith (lowerStr name) t) with
  | some t => t
  | none => lowerStr (pySuffix name)

/-- `resolve_category` from the source: `EXT_MAP.get(ext, "Others")`. -/
def resolve_category (ext : String) : String :=
  match EXT_MAP.find? (fun p => p.1 == ext) with
  | some p => p.2
  | none => "Others"

/-! ## Collision resolver (`make_unique_target`) -/

/-- The candidate name `f"{stem}_{i}{suffix}"` built by the collision
resolver. -/
def candName (stem sfx : String) (i : Nat) : String :=
  stem ++ "_" ++ Nat.repr i ++ sfx

/-- The `while True` search of `make_unique_target`, with explicit fuel.
`make_unique_target` supplies fuel that provably suffices
(`exists_free_candName`). -/
def searchFree (fs : List String) (stem sfx : String) : Nat → Nat → String
  | i, 0 => candName stem sfx i
  | i, fuel + 1 =>
    if candName stem sfx i ∈ fs then searchFree fs stem sfx (i + 1) fuel
    else candName stem sfx i

/-- `make_unique_target` from the source.  The directory holding the desired
target is modelled as the list `fs` of the names that exist in it; the
argument and the result are file names inside that directory.  Each call
starts its numbering afresh at `1`, exactly as the source re-initialises
`i = 1`. -/
def make_unique_target (fs : List String) (name : String) : String :=
  if name ∈ fs then searchFree fs (pyStem name) (pySuffix name) 1 (fs.length + 1)
  else name

/-- The numbered variant of a desired target name: counter `i` inserted
between `pyStem` and `pySuffix`. -/
def numberedTarget (name : String) (i : Nat) : String :=
  candName (pyStem name) (pySuffix name) i

/-! ## Decimal decoding: `Nat.repr` is injective.

Needed to know that the candidate names `stem_1`, `stem_2`, … are pairwise
distinct, which bounds the index of the first free candidate by the size of
the directory and hence shows the fuel given to `searchFree` suffices. -/

/-- Numeric value of a decimal digit character. -/
def decDigit (c : Char) : Nat := c.toNat - 48

/-- Decimal value of a digit string (most significant first), starting from
accumulator `a`. -/
def decList (a : Nat) (l : List Char) : Nat :=
  l.foldl (fun x c => 10 * x + decDigit c) a

theorem toDigitsCore_append (f : Nat) : ∀ (n : Nat) (ds : List Char),
    Nat.toDigitsCore 10 f n ds = Nat.toDigitsCore 10 f n [] ++ ds := by
  induction f with
  | zero => intro n ds; simp [Nat.toDigitsCore]
  | succ f ih =>
    intro n ds
    simp only [Nat.toDigitsCore]
    by_cases h : n / 10 = 0
    · simp [h]
    · rw [if_neg h, if_neg h, ih (n / 10) (Nat.digitChar (n % 10) :: ds),
        ih (n / 10) [Nat.digitChar (n % 10)]]
      simp

theorem decDigit_digitChar (n : Nat) (h : n < 10) :
    decDigit (Nat.digitChar n) = n := by
  interval_cases n <;> decide

theorem decList_toDigitsCore (f : Nat) : ∀ n : Nat, n < f →
    decList 0 (Nat.toDigitsCore 10 f n []) = n := by
  induction f with
  | zero => intro n hn; omega
  | succ f ih =>
    intro n hn
    simp only [Nat.toDigitsCore]
    by_cases h : n / 10 = 0
    · have hn10 : n < 10 := by omega
      rw [if_pos h]
      have hmod : n % 10 = n := Nat.mod_eq_of_lt hn10
      simp [decList, hmod, decDigit_digitChar n hn10]
    · rw [if_neg h, toDigitsCore_append]
      have h10 : 10 ≤ n := by
        by_contra hlt
        exact h (Nat.div_eq_of_lt (by omega))
      have hdiv : n / 10 < f := by
        have := Nat.div_lt_self (by omega : 0 < n) (by omega : 1 < 10)
        omega
      simp only [decList] at *
      rw [List.foldl_append, ih (n / 10) hdiv]
      simp [decDigit_digitChar (n % 10) (Nat.mod_lt n (by omega))]
      omega

theorem nat_repr_injective {m n : Nat} (h : Nat.repr m = Nat.repr n) : m = n := by
  have hd : Nat.toDigits 10 m = Nat.toDigits 10 n := by
    have := congrArg String.data h
    simpa [Nat.repr, List.asString] using this
  have hm := decList_toDigitsCore (m + 1) m (by omega)
  have hn := decList_toDigitsCore (n + 1) n (by omega)
  unfold Nat.toDigits at hd
  rw [← hm, ← hn, hd]

theorem candName_injective (stem sfx : String) {i j : Nat}
    (h : candName stem sfx i = candName stem sfx j) : i = j := by
  have hdata := congrArg String.data h
  simp only [candName, String.data_append] at hdata
  have h1 := List.append_cancel_right hdata
  have h3 : (Nat.repr i).data = (Nat.repr j).data := List.append_cancel_left h1
  have : Nat.repr i = Nat.repr j := by
    cases hi : Nat.repr i with
    | mk di =>
      cases hj : Nat.repr j with
      | mk dj =>
        rw [hi, hj] at h3
        simp only [] at h3
        rw [h3]
  exact nat_repr_injective this

/-- Pigeonhole: among the first `fs.length + 1` candidates there is one that
is not in `fs`. -/
theorem exists_free_candName (fs : List String) (stem sfx : String) :
    ∃ k, 1 ≤ k ∧ k ≤ fs.length + 1 ∧ candName stem sfx k ∉ fs := by
  by_contra hall
  push_neg at hall
  have hmem : ∀ i ∈ List.range (fs.length + 1),
      candName stem sfx (i + 1) ∈ fs := by
    intro i hi
    rw [List.mem_range] at hi
    exact hall (i + 1) (by omega) (by omega)
  have hnodup : (List.map (fun i => candName stem sfx (i + 1))
      (List.range (fs.length + 1))).Nodup := by
    refine (List.nodup_range _).map ?_
    intro a b hab
    have := candName_injective stem sfx hab
    omega
  have hsub : (List.map (fun i => candName stem sfx (i + 1))
      (List.range (fs.length + 1))) ⊆ fs := by
    intro x hx
    rw [List.mem_map] at hx
    obtain ⟨i, hi, rfl⟩ := hx
    exact hmem i hi
  have hlen := (hnodup.subperm hsub).length_le
  simp at hlen

/-- `searchFree` returns the first free candidate, provided the fuel reaches
it. -/
theorem searchFree_eq_candName (fs : List String) (stem sfx : String) :
    ∀ (fuel i k : Nat), i ≤ k → k ≤ i + fuel →
    candName stem sfx k ∉ fs →
    (∀ j, i ≤ j → j < k → candName stem sfx j ∈ fs) →
    searchFree fs stem sfx i fuel = candName stem sfx k := by
  intro fuel
  induction fuel with
  | zero =>
    intro i k hik hki _ _
    have : k = i := by omega
    subst this
    rfl
  | succ fuel ih =>
    intro i k hik hki hfree hmin
    simp only [searchFree]
    by_cases hc : candName stem sfx i ∈ fs
    · rw [if_pos hc]
      have hne : i ≠ k := by
        intro he
        exact hfree (he ▸ hc)
      exact ih (i + 1) k (by omega) (by omega) hfree
        (fun j hj1 hj2 => hmin j (by omega) hj2)
    · rw [if_neg hc]
      have : k = i := by
        by_contra hne
        exact hc (hmin i (le_refl i) (by omega))
      rw [this]

/-! ## The directory tree model -/

inductive EKind where
  | dir : EKind
  | file : EKind
  | other : EKind
deriving DecidableEq

/-- One filesystem entry.  `sym` is Python `is_symlink()`.  For a directory,
`listFail = some msg` means `iterdir` raises an error with message `msg`;
for a regular file, `moveFail = some msg` means `shutil.move` raises with
message `msg` (`none` = the operation succeeds).  `children` is the listing
of a directory (ignored for the other kinds). -/
inductive Entry : Type where
  | mk (name : String) (kind : EKind) (sym : Bool) (listFail : Option String)
      (moveFail : Option String) (children : List Entry)

def Entry.name : Entry → String
  | .mk n _ _ _ _ _ => n

def Entry.kind : Entry → EKind
  | .mk _ k _ _ _ _ => k

def Entry.sym : Entry → Bool
  | .mk _ _ s _ _ _ => s

def Entry.listFail : Entry → Option String
  | .mk _ _ _ lf _ _ => lf

def Entry.moveFail : Entry → Option String
  | .mk _ _ _ _ mf _ => mf

def Entry.children : Entry → List Entry
  | .mk _ _ _ _ _ cs => cs

mutual

def Entry.size : Entry → Nat
  | .mk _ _ _ _ _ cs => 1 + sizeL cs

def sizeL : List Entry → Nat
  | [] => 0
  | e :: es => Entry.size e + sizeL es

end

/-- `entry.name in set(EXT_MAP.values()) | {"Others"}` from the source. -/
def isCatLabel (s : String) : Bool :=
  (EXT_MAP.map Prod.snd).contains s || s == "Others"

/-- The three boolean policies of `organize_iterative`. -/
structure Config where
  dryRun : Bool
  includeHidden : Bool
  followSymlinks : Bool

/-- The mutable run state of `organize_iterative`, together with the
filesystem effects of the run.  `summary`, `errors` and `processed` are the
variables of those names in the source (`summary` is a `defaultdict(int)`,
modelled as an association list in key-insertion order; `errors` records
full paths as component lists).  `dest` is the relevant filesystem state:
for each category directory under the root that currently exists, the names
it contains.  `created` records the category directories actually created
(`mkdir` on an existing directory with `exist_ok=True` creates nothing),
`moves` the performed `shutil.move` calls (source path, destination path),
`visited` the files that reached the `processed += 1` line, and
`moveFailCount` the number of caught per-file move errors.  `truncated` is
the fuel-exhaustion marker of the embedding; it provably stays `false` for
the fuel `organize_iterative` supplies. -/
structure St where
  summary : List (String × Nat)
  errors : List (List String × String)
  processed : Nat
  dest : List (String × List String)
  created : List String
  moves : List (List String × List String)
  visited : List (List String)
  moveFailCount : Nat
  truncated : Bool

/-- `summary[category] += 1` on a `defaultdict(int)`: increment the entry if
the key is present, otherwise append the key with count 1. -/
def bump : List (String × Nat) → String → List (String × Nat)
  | [], c => [(c, 1)]
  | (k, v) :: rest, c =>
    if k = c then (k, v + 1) :: rest else (k, v) :: bump rest c

/-- Sum of the per-category counts of a summary. -/
def sumCounts (l : List (String × Nat)) : Nat := (l.map Prod.snd).sum

/-- Contents of the category directory `cat`, `[]` if it does not exist. -/
def destGet (dest : List (String × List String)) (cat : String) : List String :=
  match dest.find? (fun p => p.1 == cat) with
  | some p => p.2
  | none => []

/-- Record a new name inside the category directory `cat`. -/
def destAdd (dest : List (String × List String)) (cat n : String) :
    List (String × List String) :=
  dest.map (fun p => if p.1 == cat then (p.1, p.2 ++ [n]) else p)

/-- `(root / category).mkdir(parents=True, exist_ok=True)`: create the
category directory if it does not exist yet, otherwise do nothing. -/
def mkdirEnsure (st : St) (cat : String) : St :=
  match st.dest.find? (fun p => p.1 == cat) with
  | some _ => st
  | none => { st with dest := st.dest ++ [(cat, [])], created := st.created ++ [cat] }

/-- The `elif entry.is_file():` branch of the walker, for the file `e` whose
directory is `dirPath`.  Follows the source line by line: count the file,
classify it, ensure the destination directory, then either record the
intended move in the summary (dry run) or attempt the move, recording a
per-file error on failure. -/
def processFile (cfg : Config) (rootPath dirPath : List String) (e : Entry)
    (st : St) : St :=
  let p := dirPath ++ [e.name]
  let cat := resolve_category (get_extension_lower e.name)
  let st1 := { st with processed := st.processed + 1, visited := st.visited ++ [p] }
  let st2 := mkdirEnsure st1 cat
  if cfg.dryRun then
    { st2 with summary := bump st2.summary cat }
  else
    match e.moveFail with
    | some msg =>
      { st2 with errors := st2.errors ++ [(p, msg)],
                 moveFailCount := st2.moveFailCount + 1 }
    | none =>
      let uniq := make_unique_target (destGet st2.dest cat) e.name
      { st2 with summary := bump st2.summary cat,
                 moves := st2.moves ++ [(p, rootPath ++ [cat, uniq])],
                 dest := destAdd st2.dest cat uniq }

/-- The body of `for entry in current.iterdir():` for one child `e` of the
directory `dirPath`: apply the hidden and symlink filters, push non-category
directories onto the stack, process regular files, skip anything else. -/
def stepChild (cfg : Config) (rootPath dirPath : List String)
    (acc : St × List (List String × Entry)) (e : Entry) :
    St × List (List String × Entry) :=
  let (st, stk) := acc
  if !cfg.includeHidden && startsWithDot e.name then acc
  else if e.sym && !cfg.followSymlinks then acc
  else if e.kind = EKind.dir then
    if isCatLabel e.name then acc
    else (st, (dirPath ++ [e.name], e) :: stk)
  else if e.kind = EKind.file then
    (processFile cfg rootPath dirPath e st, stk)
  else acc

/-- The `while stack:` loop, with explicit fuel.  The stack is kept head
first: `current = stack.pop()` pops the head, and pushing a child conses it,
which reproduces the LIFO order of the Python list.  A directory whose
`iterdir` raises is recorded in `errors` and contributes no children. -/
def loop (cfg : Config) (rootPath : List String) :
    Nat → List (List String × Entry) → St → St
  | _, [], st => st
  | 0, _ :: _, st => { st with truncated := true }
  | fuel + 1, (p, e) :: rest, st =>
    match e.listFail with
    | some msg =>
      loop cfg rootPath fuel rest { st with errors := st.errors ++ [(p, msg)] }
    | none =>
      let acc := e.children.foldl (stepChild cfg rootPath p) (st, rest)
      loop cfg rootPath fuel acc.2 acc.1

/-- The category directories that already exist directly under the root
when the run starts, with the names of their children. -/
def initDest (root : Entry) : List (String × List String) :=
  root.children.filterMap (fun c =>
    if c.kind = EKind.dir && isCatLabel c.name then
      some (c.name, c.children.map Entry.name)
    else none)

/-- The run state at the start of `organize_iterative`. -/
def initSt (root : Entry) : St :=
  { summary := [], errors := [], processed := 0, dest := initDest root,
    created := [], moves := [], visited := [], moveFailCount := 0,
    truncated := false }

/-- `organize_iterative` from the source.  The root argument is `none` when
the path does not exist, and `some root` otherwise; a root that exists but
is not a directory is likewise rejected, mirroring
`if not root.exists() or not root.is_dir(): raise ValueError(...)`.  On a
valid root the explicit-stack walk runs to completion (the supplied fuel
`Entry.size root` is an upper bound on the number of loop iterations, see
`organize_not_truncated`) and the final state — summary, error list and
filesystem effects — is returned. -/
def organize_iterative (cfg : Config) (rootPath : List String)
    (root : Option Entry) : Except String St :=
  match root with
  | none => .error "Path does not exist or is not a directory"
  | some r =>
    if r.kind = EKind.dir then
      .ok (loop cfg rootPath (Entry.size r) [(rootPath, r)] (initSt r))
    else
      .error "Path does not exist or is not a directory"

/-! ## Character and string lemmas for the classifier claims -/

theorem string_data_ext {s t : String} (h : s.data = t.data) : s = t := by
  obtain ⟨d⟩ := s
  obtain ⟨d'⟩ := t
  simp only [] at h
  rw [h]

theorem toLower_eq_dot {c : Char} (h : Char.toLower c = '.') : c = '.' := by
  by_cases hc : 65 ≤ c.toNat ∧ c.toNat ≤ 90
  · exfalso
    have h1 : Char.toLower c = Char.ofNat (c.toNat + 32) := by
      unfold Char.toLower
      rw [if_pos hc]
    obtain ⟨ha, hb⟩ := hc
    rw [h1] at h
    generalize hn : c.toNat = n at ha hb h
    interval_cases n <;> exact absurd h (by decide)
  · have h1 : Char.toLower c = c := by
      unfold Char.toLower
      rw [if_neg hc]
    rw [h1] at h
    exact h

theorem toLower_idem (c : Char) : Char.toLower (Char.toLower c) = Char.toLower c := by
  by_cases hc : 65 ≤ c.toNat ∧ c.toNat ≤ 90
  · have h1 : Char.toLower c = Char.ofNat (c.toNat + 32) := by
      unfold Char.toLower
      rw [if_pos hc]
    obtain ⟨ha, hb⟩ := hc
    generalize hn : c.toNat = n at h1 ha hb
    interval_cases n <;> (rw [h1]; decide)
  · have h1 : Char.toLower c = c := by
      unfold Char.toLower
      rw [if_neg hc]
    rw [h1, h1]

theorem lowerStr_idem (s : String) : lowerStr (lowerStr s) = lowerStr s := by
  show (⟨(s.data.map Char.toLower).map Char.toLower⟩ : String) = ⟨s.data.map Char.toLower⟩
  rw [List.map_map]
  exact congrArg String.mk (List.map_congr_left (fun c _ => toLower_idem c))

theorem rlastIdx_map_toLower (l : List Char) :
    rlastIdx (l.map Char.toLower) '.' = rlastIdx l '.' := by
  induction l with
  | nil => rfl
  | cons a as ih =>
    simp only [List.map_cons, rlastIdx, ih]
    cases h : rlastIdx as '.' with
    | some i => rfl
    | none =>
      by_cases ha : a = '.'
      · subst ha
        have hl : Char.toLower '.' = '.' := by decide
        simp [hl]
      · have hl : Char.toLower a ≠ '.' := fun hc => ha (toLower_eq_dot hc)
        simp [ha, hl]

theorem pySuffix_lowerStr (s : String) : pySuffix (lowerStr s) = lowerStr (pySuffix s) := by
  unfold pySuffix
  have hdata : (lowerStr s).data = s.data.map Char.toLower := rfl
  rw [hdata, rlastIdx_map_toLower]
  cases h : rlastIdx s.data '.' with
  | none => rfl
  | some i =>
    simp only [List.length_map]
    by_cases hc : 0 < i ∧ i < s.data.length - 1
    · rw [if_pos hc, if_pos hc]
      show (⟨(s.data.map Char.toLower).drop i⟩ : String) = ⟨(s.data.drop i).map Char.toLower⟩
      exact congrArg String.mk (List.map_drop Char.toLower s.data i).symm
    · rw [if_neg hc, if_neg hc]
      rfl

theorem get_extension_lower_lowerStr (s : String) :
    get_extension_lower (lowerStr s) = get_extension_lower s := by
  unfold get_extension_lower
  simp only [lowerStr_idem]
  cases h : MULTI_EXTENSIONS.find? (fun t => strEndsWith (lowerStr s) t) with
  | some t => rfl
  | none =>
    rw [pySuffix_lowerStr, lowerStr_idem]

theorem rlastIdx_append_some (l₁ l₂ : List Char) (c : Char) (i : Nat)
    (h : rlastIdx l₂ c = some i) :
    rlastIdx (l₁ ++ l₂) c = some (l₁.length + i) := by
  induction l₁ with
  | nil => simpa using h
  | cons a as ih =>
    have hstep : rlastIdx ((a :: as) ++ l₂) c =
        match rlastIdx (as ++ l₂) c with
        | some j => some (j + 1)
        | none => if a = c then some 0 else none := rfl
    rw [hstep, ih]
    show some (as.length + i + 1) = some ((a :: as).length + i)
    simp only [List.length_cons, Option.some.injEq]
    omega

theorem pySuffix_of_some {name : String} {i : Nat}
    (h : rlastIdx name.data '.' = some i)
    (hc : 0 < i ∧ i < name.data.length - 1) :
    pySuffix name = ⟨name.data.drop i⟩ := by
  unfold pySuffix
  rw [h]
  exact if_pos hc

theorem pyStem_of_some {name : String} {i : Nat}
    (h : rlastIdx name.data '.' = some i)
    (hc : 0 < i ∧ i < name.data.length - 1) :
    pyStem name = ⟨name.data.take i⟩ := by
  unfold pyStem
  rw [h]
  exact if_pos hc

theorem pySuffix_pyStem_tar_gz (s : String) (l : List Char)
    (hs : s.data = l ++ ".tar.gz".data) :
    pySuffix s = ".gz" ∧ pyStem s = ⟨l ++ ".tar".data⟩ := by
  have hr : rlastIdx s.data '.' = some (l.length + 4) := by
    rw [hs]
    exact rlastIdx_append_some l _ '.' 4 (by decide)
  have hlen : s.data.length = l.length + 7 := by
    have h7 : ".tar.gz".data.length = 7 := rfl
    rw [hs, List.length_append, h7]
  have hcond : 0 < l.length + 4 ∧ l.length + 4 < s.data.length - 1 := by
    refine ⟨by omega, ?_⟩
    rw [hlen]; omega
  constructor
  · rw [pySuffix_of_some hr hcond, hs]
    have hd : (l ++ ".tar.gz".data).drop (l.length + 4) = ".gz".data := by
      have h4 := @List.drop_append Char l (".tar.gz".data) 4
      simpa using h4
    rw [hd]
  · rw [pyStem_of_some hr hcond, hs]
    have ht : (l ++ ".tar.gz".data).take (l.length + 4) = l ++ ".tar".data := by
      have h4 := @List.take_append Char l (".tar.gz".data) 4
      simpa using h4
    rw [ht]

/-- Shared characterisation of `make_unique_target` on a colliding name:
it returns the first free numbered candidate. -/
theorem make_unique_target_eq_first_free (fs : List String) (name : String)
    (k : Nat) (hmem : name ∈ fs) (hk : 1 ≤ k)
    (hfree : numberedTarget name k ∉ fs)
    (hmin : ∀ j, 1 ≤ j → j < k → numberedTarget name j ∈ fs) :
    make_unique_target fs name = numberedTarget name k := by
  unfold make_unique_target
  rw [if_pos hmem]
  obtain ⟨j, hj1, hj2, hjfree⟩ := exists_free_candName fs (pyStem name) (pySuffix name)
  have hkj : k ≤ j := by
    by_contra hlt
    exact hjfree (hmin j hj1 (by omega))
  exact searchFree_eq_candName fs (pyStem name) (pySuffix name)
    (fs.length + 1) 1 k hk (by omega) hfree (fun j' h1 h2 => hmin j' h1 h2)

/-! ## Claims about the classifier and the collision resolver -/

/-- Claim C1: for every file name ending in `.tar.gz` (case-insensitively),
extension extraction yields `".tar.gz"`, so classification resolves to
whatever the table lookup gives for `".tar.gz"` — which is `"Others"`,
since `EXT_MAP` has no `".tar.gz"` key — and in particular not to the
`".gz"` entry's category `"Archives"`. -/
theorem claim_c1 (s : String) (h : strEndsWith (lowerStr s) ".tar.gz" = true) :
    get_extension_lower s = ".tar.gz" ∧
    resolve_category (get_extension_lower s) = resolve_category ".tar.gz" ∧
    resolve_category ".tar.gz" = "Others" ∧
    resolve_category ".gz" = "Archives" ∧
    resolve_category (get_extension_lower s) ≠ "Archives" := by
  have hf : MULTI_EXTENSIONS.find? (fun t => strEndsWith (lowerStr s) t) =
      some ".tar.gz" := by
    unfold MULTI_EXTENSIONS
    exact List.find?_cons_of_pos _ h
  have h1 : get_extension_lower s = ".tar.gz" := by
    unfold get_extension_lower
    rw [hf]
  refine ⟨h1, by rw [h1], by decide, by decide, ?_⟩
  rw [h1]
  decide

theorem claim_c1_witness :
    get_extension_lower "backup.tar.gz" = ".tar.gz" ∧
    resolve_category (get_extension_lower "backup.tar.gz") ≠ "Archives" :=
  ⟨(claim_c1 "backup.tar.gz" (by decide)).1,
   (claim_c1 "backup.tar.gz" (by decide)).2.2.2.2⟩

/-- Claim C8: category lookup is total: any extension that is not a key of
`EXT_MAP` — including the empty extension extracted from a name like
`README` with no dot — resolves to `"Others"`.  (`resolve_category` and
`get_extension_lower` are total Lean functions, so no input raises.) -/
theorem claim_c8 :
    (∀ ext : String, ext ∉ EXT_MAP.map Prod.fst → resolve_category ext = "Others") ∧
    get_extension_lower "README" = "" ∧
    resolve_category (get_extension_lower "README") = "Others" := by
  refine ⟨?_, by decide, by decide⟩
  intro ext hext
  unfold resolve_category
  cases hf : EXT_MAP.find? (fun p => p.1 == ext) with
  | none => rfl
  | some p =>
    exfalso
    have hp := List.find?_some hf
    have hmem := List.mem_of_find?_eq_some hf
    apply hext
    rw [List.mem_map]
    exact ⟨p, hmem, eq_of_beq hp⟩

theorem claim_c8_witness : resolve_category ".xyz" = "Others" :=
  claim_c8.1 ".xyz" (by decide)

/-- Claim C9: classification is deterministic (it is a function) and
case-insensitive: a name and its lowercased form always classify alike, and
`A.JPG` / `a.jpg` both resolve to `Images`. -/
theorem claim_c9 :
    (∀ s : String, resolve_category (get_extension_lower (lowerStr s)) =
      resolve_category (get_extension_lower s)) ∧
    resolve_category (get_extension_lower "A.JPG") = "Images" ∧
    resolve_category (get_extension_lower "a.jpg") = "Images" :=
  ⟨fun s => congrArg resolve_category (get_extension_lower_lowerStr s),
   by decide, by decide⟩

/-- Claim C4: the collision resolver returns the desired name unchanged when
it does not exist; otherwise it returns the first candidate
`stem_i.suffix`, `i = 1, 2, 3, …`, that does not exist — in particular
`photo_3.png` when `photo.png`, `photo_1.png`, `photo_2.png` all exist.
The numbering restarting at 1 on every call is inherent: the function is
pure and always begins its search at `i = 1`. -/
theorem claim_c4 (fs : List String) (name : String) :
    (name ∉ fs → make_unique_target fs name = name) ∧
    (∀ k, name ∈ fs → 1 ≤ k → numberedTarget name k ∉ fs →
      (∀ j, 1 ≤ j → j < k → numberedTarget name j ∈ fs) →
      make_unique_target fs name = numberedTarget name k) ∧
    make_unique_target ["photo.png", "photo_1.png", "photo_2.png"] "photo.png" =
      "photo_3.png" := by
  refine ⟨?_, ?_, by decide⟩
  · intro h
    unfold make_unique_target
    rw [if_neg h]
  · intro k hmem hk hfree hmin
    exact make_unique_target_eq_first_free fs name k hmem hk hfree hmin

theorem claim_c4_witness :
    make_unique_target ["a.txt"] "a.txt" = "a_1.txt" :=
  (claim_c4 ["a.txt"] "a.txt").2.1 1 (by decide) (by decide) (by decide)
    (by intro j h1 h2; omega)

/-- Claim C10: on a colliding destination whose name has several dots, the
counter goes before the final single suffix only: a name of the form
`…/.tar.gz` has `pySuffix = ".gz"` and `pyStem` ending in `.tar`, the first
numbered candidate is `….tar_1.gz` (not `…_1.tar.gz`), and that renamed
name no longer ends in `.tar.gz`. -/
theorem claim_c10 (s : String) (l : List Char) (hs : s.data = l ++ ".tar.gz".data) :
    pySuffix s = ".gz" ∧
    pyStem s = ⟨l ++ ".tar".data⟩ ∧
    numberedTarget s 1 = ⟨l ++ ".tar_1.gz".data⟩ ∧
    (∀ fs, s ∈ fs → numberedTarget s 1 ∉ fs →
      make_unique_target fs s = (⟨l ++ ".tar_1.gz".data⟩ : String)) ∧
    strEndsWith ⟨l ++ ".tar_1.gz".data⟩ ".tar.gz" = false ∧
    (⟨l ++ ".tar_1.gz".data⟩ : String) ≠ ⟨l ++ "_1.tar.gz".data⟩ := by
  obtain ⟨hsfx, hstm⟩ := pySuffix_pyStem_tar_gz s l hs
  have hnt : numberedTarget s 1 = ⟨l ++ ".tar_1.gz".data⟩ := by
    unfold numberedTarget candName
    rw [hsfx, hstm]
    apply string_data_ext
    show ((⟨l ++ ".tar".data⟩ : String) ++ "_" ++ Nat.repr 1 ++ ".gz").data =
      l ++ ".tar_1.gz".data
    simp only [String.data_append, List.append_assoc]
    show l ++ (".tar".data ++ ("_".data ++ ((Nat.repr 1).data ++ ".gz".data))) =
      l ++ ".tar_1.gz".data
    exact congrArg (l ++ ·) (by decide)
  refine ⟨hsfx, hstm, hnt, ?_, ?_, ?_⟩
  · intro fs hmem hfree
    rw [← hnt]
    exact make_unique_target_eq_first_free fs s 1 hmem (le_refl 1) hfree
      (by intro j h1 h2; omega)
  · show (decide (".tar.gz".data.length ≤ (l ++ ".tar_1.gz".data).length) &&
      ((l ++ ".tar_1.gz".data).drop
        ((l ++ ".tar_1.gz".data).length - ".tar.gz".data.length) ==
        ".tar.gz".data)) = false
    have hlen : (l ++ ".tar_1.gz".data).length = l.length + 9 := by
      have h9 : ".tar_1.gz".data.length = 9 := rfl
      rw [List.length_append, h9]
    have h7 : ".tar.gz".data.length = 7 := rfl
    rw [hlen, h7]
    have hidx : l.length + 9 - 7 = l.length + 2 := by omega
    rw [hidx]
    have hdrop : (l ++ ".tar_1.gz".data).drop (l.length + 2) = "ar_1.gz".data := by
      have h2 := @List.drop_append Char l (".tar_1.gz".data) 2
      simpa using h2
    rw [hdrop]
    have hne : ("ar_1.gz".data == ".tar.gz".data) = false := by decide
    rw [hne, Bool.and_false]
  · intro he
    have hdata := congrArg String.data he
    simp only [] at hdata
    have h2 := List.append_cancel_left hdata
    exact absurd h2 (by decide)

theorem claim_c10_witness :
    make_unique_target ["backup.tar.gz"] "backup.tar.gz" = "backup.tar_1.gz" ∧
    strEndsWith "backup.tar_1.gz" ".tar.gz" = false := by
  have hc := claim_c10 "backup.tar.gz" "backup".data (by decide)
  refine ⟨?_, ?_⟩
  · have h4 := hc.2.2.2.1 ["backup.tar.gz"] (by decide) ?_
    · rw [h4]
      decide
    · rw [hc.2.2.1]
      decide
  · have h5 := hc.2.2.2.2.1
    have hmk : (⟨"backup".data ++ ".tar_1.gz".data⟩ : String) = "backup.tar_1.gz" := by
      decide
    rw [hmk] at h5
    exact h5

/-! ## Claim about root validation -/

/-- Claim C6: a missing root, or a root that exists but is not a directory,
makes `organize_iterative` fail with the distinguished `ValueError` before
any traversal; since every filesystem effect of the model lives in the
returned state and the error case returns none, the filesystem is
untouched. -/
theorem claim_c6 (cfg : Config) (rootPath : List String) :
    organize_iterative cfg rootPath none =
      .error "Path does not exist or is not a directory" ∧
    (∀ e : Entry, e.kind ≠ EKind.dir →
      organize_iterative cfg rootPath (some e) =
        .error "Path does not exist or is not a directory") := by
  refine ⟨rfl, ?_⟩
  intro e he
  show (if e.kind = EKind.dir then
      Except.ok (loop cfg rootPath (Entry.size e) [(rootPath, e)] (initSt e))
    else Except.error "Path does not exist or is not a directory") =
    Except.error "Path does not exist or is not a directory"
  rw [if_neg he]

theorem claim_c6_witness :
    organize_iterative ⟨true, true, true⟩ ["R"]
      (some (.mk "f.txt" EKind.file false none none [])) =
      .error "Path does not exist or is not a directory" :=
  (claim_c6 ⟨true, true, true⟩ ["R"]).2 (.mk "f.txt" EKind.file false none none [])
    (by decide)

/-! ## Filter predicates and a case analysis of `stepChild` -/

/-- A child passes the hidden and symlink filters of the walker. -/
def keepEntry (cfg : Config) (e : Entry) : Bool :=
  !(!cfg.includeHidden && startsWithDot e.name) && !(e.sym && !cfg.followSymlinks)

/-- A child is a regular file that the walker processes. -/
def keptFile (cfg : Config) (e : Entry) : Bool :=
  keepEntry cfg e && decide (e.kind = EKind.file)

/-- A child is a directory that the walker pushes onto the stack (it is not
named like a category folder). -/
def keptDir (cfg : Config) (e : Entry) : Bool :=
  keepEntry cfg e && decide (e.kind = EKind.dir) && !isCatLabel e.name

theorem stepChild_cases (cfg : Config) (rootPath dirPath : List String)
    (acc : St × List (List String × Entry)) (e : Entry) :
    stepChild cfg rootPath dirPath acc e =
      if keptFile cfg e then (processFile cfg rootPath dirPath e acc.1, acc.2)
      else if keptDir cfg e then (acc.1, (dirPath ++ [e.name], e) :: acc.2)
      else acc := by
  obtain ⟨st, stk⟩ := acc
  unfold stepChild keptFile keptDir keepEntry
  by_cases h1 : (!cfg.includeHidden && startsWithDot e.name) = true
  · simp [h1]
  · by_cases h2 : (e.sym && !cfg.followSymlinks) = true
    · simp [h1, h2]
    · cases hk : e.kind with
      | dir =>
        by_cases h3 : isCatLabel e.name = true
        · simp [h1, h2, h3, hk]
        · simp [h1, h2, h3, hk]
      | file => simp [h1, h2, hk]
      | other => simp [h1, h2, hk]

theorem keptFile_not_keptDir {cfg : Config} {e : Entry}
    (h : keptFile cfg e = true) : keptDir cfg e = false := by
  unfold keptFile at h
  have hk : e.kind = EKind.file := by
    have h2 := (Bool.and_eq_true _ _).mp h
    exact of_decide_eq_true h2.2
  unfold keptDir
  rw [hk]
  simp

/-! ## Component equations of `processFile` -/

theorem bump_sum (l : List (String × Nat)) (c : String) :
    sumCounts (bump l c) = sumCounts l + 1 := by
  induction l with
  | nil => rfl
  | cons kv rest ih =>
    obtain ⟨k, v⟩ := kv
    unfold bump
    by_cases h : k = c
    · rw [if_pos h]
      simp [sumCounts]
      omega
    · rw [if_neg h]
      simp [sumCounts] at ih ⊢
      omega

theorem mkdirEnsure_fields (st : St) (cat : String) :
    (mkdirEnsure st cat).visited = st.visited ∧
    (mkdirEnsure st cat).errors = st.errors ∧
    (mkdirEnsure st cat).processed = st.processed ∧
    (mkdirEnsure st cat).summary = st.summary ∧
    (mkdirEnsure st cat).moves = st.moves ∧
    (mkdirEnsure st cat).moveFailCount = st.moveFailCount ∧
    (mkdirEnsure st cat).truncated = st.truncated := by
  unfold mkdirEnsure
  cases st.dest.find? (fun p => p.1 == cat) <;> exact ⟨rfl, rfl, rfl, rfl, rfl, rfl, rfl⟩

theorem processFile_visited (cfg : Config) (rootPath dirPath : List String)
    (e : Entry) (st : St) :
    (processFile cfg rootPath dirPath e st).visited =
      st.visited ++ [dirPath ++ [e.name]] := by
  unfold processFile
  have hm := (mkdirEnsure_fields
    { st with processed := st.processed + 1,
              visited := st.visited ++ [dirPath ++ [e.name]] }
    (resolve_category (get_extension_lower e.name))).1
  by_cases hd : cfg.dryRun = true
  · simp only [hd, if_pos]
    simpa using hm
  · simp only [hd]
    cases e.moveFail <;> simp <;> simpa using hm

theorem processFile_processed (cfg : Config) (rootPath dirPath : List String)
    (e : Entry) (st : St) :
    (processFile cfg rootPath dirPath e st).processed = st.processed + 1 := by
  unfold processFile
  have hm := (mkdirEnsure_fields
    { st with processed := st.processed + 1,
              visited := st.visited ++ [dirPath ++ [e.name]] }
    (resolve_category (get_extension_lower e.name))).2.2.1
  by_cases hd : cfg.dryRun = true
  · simp only [hd, if_pos]
    simpa using hm
  · simp only [hd]
    cases e.moveFail <;> simp <;> simpa using hm

theorem processFile_errors (cfg : Config) (rootPath dirPath : List String)
    (e : Entry) (st : St) :
    (processFile cfg rootPath dirPath e st).errors =
      st.errors ++ (if cfg.dryRun then []
        else match e.moveFail with
          | some m => [(dirPath ++ [e.name], m)]
          | none => []) := by
  unfold processFile
  have hm := (mkdirEnsure_fields
    { st with processed := st.processed + 1,
              visited := st.visited ++ [dirPath ++ [e.name]] }
    (resolve_category (get_extension_lower e.name))).2.1
  by_cases hd : cfg.dryRun = true
  · simp only [hd, if_pos]
    simpa using hm
  · simp only [hd]
    cases e.moveFail <;> simp <;> simpa using hm

theorem processFile_sumInv (cfg : Config) (rootPath dirPath : List String)
    (e : Entry) (st : St)
    (h : sumCounts st.summary + st.moveFailCount = st.processed) :
    sumCounts (processFile cfg rootPath dirPath e st).summary +
      (processFile cfg rootPath dirPath e st).moveFailCount =
      (processFile cfg rootPath dirPath e st).processed := by
  unfold processFile
  have hff := mkdirEnsure_fields
    { st with processed := st.processed + 1,
              visited := st.visited ++ [dirPath ++ [e.name]] }
    (resolve_category (get_extension_lower e.name))
  by_cases hd : cfg.dryRun = true
  · simp only [hd, if_pos]
    simp only [hff.2.2.2.1, hff.2.2.1, hff.2.2.2.2.2.1]
    simp [bump_sum]
    omega
  · simp only [hd]
    cases e.moveFail with
    | some m =>
      simp only []
      simp [hff.2.2.2.1, hff.2.2.1, hff.2.2.2.2.2.1]
      omega
    | none =>
      simp only []
      simp [hff.2.2.2.1, hff.2.2.1, hff.2.2.2.2.2.1, bump_sum]
      omega

theorem processFile_pv (cfg : Config) (rootPath dirPath : List String)
    (e : Entry) (st : St) (h : st.processed = st.visited.length) :
    (processFile cfg rootPath dirPath e st).processed =
      (processFile cfg rootPath dirPath e st).visited.length := by
  rw [processFile_processed, processFile_visited]
  simp [h]

theorem processFile_truncated (cfg : Config) (rootPath dirPath : List String)
    (e : Entry) (st : St) :
    (processFile cfg rootPath dirPath e st).truncated = st.truncated := by
  unfold processFile
  have hm := (mkdirEnsure_fields
    { st with processed := st.processed + 1,
              visited := st.visited ++ [dirPath ++ [e.name]] }
    (resolve_category (get_extension_lower e.name))).2.2.2.2.2.2
  by_cases hd : cfg.dryRun = true
  · simp only [hd, if_pos]
    simpa using hm
  · simp only [hd]
    cases e.moveFail <;> simp <;> simpa using hm

theorem processFile_moves_dry (cfg : Config) (rootPath dirPath : List String)
    (e : Entry) (st : St) (hd : cfg.dryRun = true) :
    (processFile cfg rootPath dirPath e st).moves = st.moves := by
  unfold processFile
  have hm := (mkdirEnsure_fields
    { st with processed := st.processed + 1,
              visited := st.visited ++ [dirPath ++ [e.name]] }
    (resolve_category (get_extension_lower e.name))).2.2.2.2.1
  simp only [hd, if_pos]
  simpa using hm

theorem processFile_mfc_dry (cfg : Config) (rootPath dirPath : List String)
    (e : Entry) (st : St) (hd : cfg.dryRun = true) :
    (processFile cfg rootPath dirPath e st).moveFailCount = st.moveFailCount := by
  unfold processFile
  have hm := (mkdirEnsure_fields
    { st with processed := st.processed + 1,
              visited := st.visited ++ [dirPath ++ [e.name]] }
    (resolve_category (get_extension_lower e.name))).2.2.2.2.2.1
  simp only [hd, if_pos]
  simpa using hm

theorem processFile_moves_cases (cfg : Config) (rootPath dirPath : List String)
    (e : Entry) (st : St) :
    (processFile cfg rootPath dirPath e st).moves = st.moves ∨
    ∃ d, (processFile cfg rootPath dirPath e st).moves =
      st.moves ++ [(dirPath ++ [e.name], d)] := by
  unfold processFile
  have hm := (mkdirEnsure_fields
    { st with processed := st.processed + 1,
              visited := st.visited ++ [dirPath ++ [e.name]] }
    (resolve_category (get_extension_lower e.name))).2.2.2.2.1
  by_cases hd : cfg.dryRun = true
  · left
    simp only [hd, if_pos]
    simpa using hm
  · simp only [hd]
    cases e.moveFail with
    | some m =>
      left
      simp only []
      simpa using hm
    | none =>
      right
      refine ⟨rootPath ++ [resolve_category (get_extension_lower e.name),
        make_unique_target
          (destGet (mkdirEnsure
            { st with processed := st.processed + 1,
                      visited := st.visited ++ [dirPath ++ [e.name]] }
            (resolve_category (get_extension_lower e.name))).dest
            (resolve_category (get_extension_lower e.name)))
          e.name], ?_⟩
      simp [hm]

/-! ## The per-directory child fold -/

/-- The cumulative effect on the run state of iterating a directory's
children: every kept regular file is processed in listing order (directories
only touch the stack, not the state). -/
def processFiles (cfg : Config) (rootPath dirPath : List String)
    (cs : List Entry) (st : St) : St :=
  cs.foldl (fun st c =>
    if keptFile cfg c then processFile cfg rootPath dirPath c st else st) st

theorem processFiles_cons (cfg : Config) (rootPath dirPath : List String)
    (c : Entry) (cs : List Entry) (st : St) :
    processFiles cfg rootPath dirPath (c :: cs) st =
      processFiles cfg rootPath dirPath cs
        (if keptFile cfg c then processFile cfg rootPath dirPath c st else st) := rfl

/-- Folding `stepChild` over the children separates into the state effect of
the kept files and the kept directories pushed (in reverse listing order, as
the LIFO stack will pop the last-listed first). -/
theorem foldl_stepChild (cfg : Config) (rootPath dirPath : List String)
    (cs : List Entry) : ∀ (st : St) (stk : List (List String × Entry)),
    cs.foldl (stepChild cfg rootPath dirPath) (st, stk) =
      (processFiles cfg rootPath dirPath cs st,
       ((cs.filter (keptDir cfg)).map (fun c => (dirPath ++ [c.name], c))).reverse ++ stk) := by
  induction cs with
  | nil =>
    intro st stk
    simp [processFiles]
  | cons c cs ih =>
    intro st stk
    rw [List.foldl_cons, stepChild_cases, processFiles_cons]
    by_cases hf : keptFile cfg c = true
    · have hd : keptDir cfg c = false := keptFile_not_keptDir hf
      rw [if_pos hf, if_pos hf]
      rw [ih (processFile cfg rootPath dirPath c st) stk]
      simp [List.filter_cons, hd]
    · rw [if_neg hf, if_neg hf]
      by_cases hd : keptDir cfg c = true
      · rw [if_pos hd]
        rw [ih st ((dirPath ++ [c.name], c) :: stk)]
        simp [List.filter_cons, hd, List.reverse_cons, List.append_assoc]
      · rw [if_neg hd]
        rw [ih st stk]
        simp [List.filter_cons, hf, hd]

theorem processFiles_visited (cfg : Config) (rootPath dirPath : List String)
    (cs : List Entry) : ∀ st : St,
    (processFiles cfg rootPath dirPath cs st).visited =
      st.visited ++ (cs.filter (keptFile cfg)).map (fun c => dirPath ++ [c.name]) := by
  induction cs with
  | nil => intro st; simp [processFiles]
  | cons c cs ih =>
    intro st
    rw [processFiles_cons]
    by_cases hf : keptFile cfg c = true
    · rw [if_pos hf, ih, processFile_visited]
      simp [List.filter_cons, hf]
    · rw [if_neg hf, ih]
      simp [List.filter_cons, hf]

theorem processFiles_errors (cfg : Config) (rootPath dirPath : List String)
    (cs : List Entry) : ∀ st : St,
    (processFiles cfg rootPath dirPath cs st).errors =
      st.errors ++ (if cfg.dryRun then []
        else (cs.filter (keptFile cfg)).filterMap
          (fun c => c.moveFail.map (fun m => (dirPath ++ [c.name], m)))) := by
  induction cs with
  | nil => intro st; simp [processFiles]
  | cons c cs ih =>
    intro st
    rw [processFiles_cons]
    by_cases hf : keptFile cfg c = true
    · rw [if_pos hf, ih, processFile_errors]
      by_cases hd : cfg.dryRun = true
      · simp [List.filter_cons, hf, hd]
      · simp only [List.filter_cons, hf, if_true, hd, if_false]
        cases hm : c.moveFail with
        | some m => simp [List.filterMap_cons, hm, List.append_assoc]
        | none => simp [List.filterMap_cons, hm]
    · rw [if_neg hf, ih]
      simp [List.filter_cons, hf]

theorem processFiles_sumInv (cfg : Config) (rootPath dirPath : List String)
    (cs : List Entry) : ∀ st : St,
    sumCounts st.summary + st.moveFailCount = st.processed →
    sumCounts (processFiles cfg rootPath dirPath cs st).summary +
      (processFiles cfg rootPath dirPath cs st).moveFailCount =
      (processFiles cfg rootPath dirPath cs st).processed := by
  induction cs with
  | nil => intro st h; simpa [processFiles] using h
  | cons c cs ih =>
    intro st h
    rw [processFiles_cons]
    by_cases hf : keptFile cfg c = true
    · rw [if_pos hf]
      exact ih _ (processFile_sumInv cfg rootPath dirPath c st h)
    · rw [if_neg hf]
      exact ih _ h

theorem processFiles_pv (cfg : Config) (rootPath dirPath : List String)
    (cs : List Entry) : ∀ st : St,
    st.processed = st.visited.length →
    (processFiles cfg rootPath dirPath cs st).processed =
      (processFiles cfg rootPath dirPath cs st).visited.length := by
  induction cs with
  | nil => intro st h; simpa [processFiles] using h
  | cons c cs ih =>
    intro st h
    rw [processFiles_cons]
    by_cases hf : keptFile cfg c = true
    · rw [if_pos hf]
      exact ih _ (processFile_pv cfg rootPath dirPath c st h)
    · rw [if_neg hf]
      exact ih _ h

theorem processFiles_truncated (cfg : Config) (rootPath dirPath : List String)
    (cs : List Entry) : ∀ st : St,
    (processFiles cfg rootPath dirPath cs st).truncated = st.truncated := by
  induction cs with
  | nil => intro st; simp [processFiles]
  | cons c cs ih =>
    intro st
    rw [processFiles_cons]
    by_cases hf : keptFile cfg c = true
    · rw [if_pos hf, ih, processFile_truncated]
    · rw [if_neg hf, ih]

theorem processFiles_moves_dry (cfg : Config) (rootPath dirPath : List String)
    (cs : List Entry) (hd : cfg.dryRun = true) : ∀ st : St,
    (processFiles cfg rootPath dirPath cs st).moves = st.moves := by
  induction cs with
  | nil => intro st; simp [processFiles]
  | cons c cs ih =>
    intro st
    rw [processFiles_cons]
    by_cases hf : keptFile cfg c = true
    · rw [if_pos hf, ih, processFile_moves_dry cfg rootPath dirPath c st hd]
    · rw [if_neg hf, ih]

theorem processFiles_mfc_dry (cfg : Config) (rootPath dirPath : List String)
    (cs : List Entry) (hd : cfg.dryRun = true) : ∀ st : St,
    (processFiles cfg rootPath dirPath cs st).moveFailCount = st.moveFailCount := by
  induction cs with
  | nil => intro st; simp [processFiles]
  | cons c cs ih =>
    intro st
    rw [processFiles_cons]
    by_cases hf : keptFile cfg c = true
    · rw [if_pos hf, ih, processFile_mfc_dry cfg rootPath dirPath c st hd]
    · rw [if_neg hf, ih]

theorem processFiles_moves_src (cfg : Config) (rootPath dirPath : List String)
    (cs : List Entry) : ∀ st : St,
    (∀ sd ∈ st.moves, sd.1 ∈ st.visited) →
    ∀ sd ∈ (processFiles cfg rootPath dirPath cs st).moves,
      sd.1 ∈ (processFiles cfg rootPath dirPath cs st).visited := by
  induction cs with
  | nil => intro st h; simpa [processFiles] using h
  | cons c cs ih =>
    intro st h
    rw [processFiles_cons]
    by_cases hf : keptFile cfg c = true
    · rw [if_pos hf]
      refine ih _ ?_
      intro sd hsd
      rw [processFile_visited]
      rcases processFile_moves_cases cfg rootPath dirPath c st with hc | ⟨d, hc⟩
      · rw [hc] at hsd
        exact List.mem_append_left _ (h sd hsd)
      · rw [hc] at hsd
        rcases List.mem_append.mp hsd with h1 | h2
        · exact List.mem_append_left _ (h sd h1)
        · rw [List.mem_singleton] at h2
          subst h2
          exact List.mem_append_right _ (by simp)
    · rw [if_neg hf]
      exact ih _ h

/-! ## Size bookkeeping for the walker's fuel -/

theorem entry_size_pos (e : Entry) : 1 ≤ Entry.size e := by
  cases e with
  | mk n k s lf mf cs =>
    show 1 ≤ 1 + sizeL cs
    omega

theorem size_eq_children (e : Entry) : Entry.size e = 1 + sizeL e.children := by
  cases e with
  | mk n k s lf mf cs => rfl

theorem sizeL_cons (c : Entry) (cs : List Entry) :
    sizeL (c :: cs) = Entry.size c + sizeL cs := rfl

theorem sizeL_append (l1 l2 : List Entry) :
    sizeL (l1 ++ l2) = sizeL l1 + sizeL l2 := by
  induction l1 with
  | nil => simp [sizeL]
  | cons c cs ih =>
    rw [List.cons_append, sizeL_cons, sizeL_cons, ih]
    omega

theorem sizeL_reverse (l : List Entry) : sizeL l.reverse = sizeL l := by
  induction l with
  | nil => rfl
  | cons c cs ih =>
    rw [List.reverse_cons, sizeL_append, sizeL_cons, ih]
    simp [sizeL, sizeL_cons]
    omega

theorem sizeL_filter_le (q : Entry → Bool) (cs : List Entry) :
    sizeL (cs.filter q) ≤ sizeL cs := by
  induction cs with
  | nil => simp [List.filter_nil]
  | cons c cs ih =>
    rw [List.filter_cons]
    by_cases h : q c = true
    · rw [if_pos h, sizeL_cons, sizeL_cons]
      omega
    · rw [if_neg h, sizeL_cons]
      have := entry_size_pos c
      omega

theorem size_mem_le {c : Entry} {cs : List Entry} (h : c ∈ cs) :
    Entry.size c ≤ sizeL cs := by
  induction cs with
  | nil => cases h
  | cons a as ih =>
    rw [sizeL_cons]
    rcases List.mem_cons.mp h with rfl | hmem
    · omega
    · have := ih hmem
      omega

/-- Measure of the pending work: total size of the entries on the stack. -/
def stackMeas (stack : List (List String × Entry)) : Nat :=
  sizeL (stack.map Prod.snd)

theorem stackMeas_cons (pe : List String × Entry) (rest : List (List String × Entry)) :
    stackMeas (pe :: rest) = Entry.size pe.2 + stackMeas rest := rfl

theorem stackMeas_append (l1 l2 : List (List String × Entry)) :
    stackMeas (l1 ++ l2) = stackMeas l1 + stackMeas l2 := by
  unfold stackMeas
  rw [List.map_append, sizeL_append]

theorem stackMeas_pushed (cfg : Config) (dirPath : List String) (cs : List Entry) :
    stackMeas (((cs.filter (keptDir cfg)).map
        (fun c => (dirPath ++ [c.name], c))).reverse) =
      sizeL (cs.filter (keptDir cfg)) := by
  unfold stackMeas
  rw [List.map_reverse, List.map_map]
  have hcomp : (Prod.snd ∘ fun c : Entry => (dirPath ++ [c.name], c)) = id := rfl
  rw [hcomp, List.map_id, sizeL_reverse]

/-! ## Reference description of a run, by structural recursion on the tree.

`specFilesE` lists, in traversal order, the paths of the files a complete
run visits: the kept files of each listable directory, then the files of its
kept (non-category, filter-passing) subdirectories, last-listed subtree
first.  `specErrsE` likewise lists the recorded errors: one entry per
unlistable directory, and (outside dry-run) one entry per kept file whose
move fails.  Both take fuel, which `specFiles` / `specErrs` instantiate with
`Entry.size`, proved sufficient by `specFilesE_congr` / `specErrsE_congr`. -/

def specFilesE (cfg : Config) : Nat → List String → Entry → List (List String)
  | 0, _, _ => []
  | fuel + 1, p, e =>
    if e.listFail.isSome then []
    else
      (e.children.filter (keptFile cfg)).map (fun c => p ++ [c.name]) ++
      ((e.children.filter (keptDir cfg)).reverse.map
        (fun c => specFilesE cfg fuel (p ++ [c.name]) c)).flatten

def specFiles (cfg : Config) (p : List String) (e : Entry) : List (List String) :=
  specFilesE cfg (Entry.size e) p e

def specErrsE (cfg : Config) : Nat → List String → Entry → List (List String × String)
  | 0, _, _ => []
  | fuel + 1, p, e =>
    match e.listFail with
    | some m => [(p, m)]
    | none =>
      (if cfg.dryRun then []
       else (e.children.filter (keptFile cfg)).filterMap
         (fun c => c.moveFail.map (fun m => (p ++ [c.name], m)))) ++
      ((e.children.filter (keptDir cfg)).reverse.map
        (fun c => specErrsE cfg fuel (p ++ [c.name]) c)).flatten

def specErrs (cfg : Config) (p : List String) (e : Entry) : List (List String × String) :=
  specErrsE cfg (Entry.size e) p e

theorem specFilesE_congr (cfg : Config) : ∀ f1 : Nat, ∀ f2 p e,
    Entry.size e ≤ f1 → Entry.size e ≤ f2 →
    specFilesE cfg f1 p e = specFilesE cfg f2 p e := by
  intro f1
  induction f1 with
  | zero =>
    intro f2 p e h1 _
    have := entry_size_pos e
    omega
  | succ f1 ih =>
    intro f2 p e h1 h2
    have hpos := entry_size_pos e
    cases f2 with
    | zero => omega
    | succ f2 =>
      simp only [specFilesE]
      by_cases hl : e.listFail.isSome = true
      · simp [hl]
      · simp only [hl, if_neg, Bool.false_eq_true, not_false_iff]
        congr 1
        refine congrArg List.flatten (List.map_congr_left ?_)
        intro c hc
        have hmem : c ∈ e.children :=
          List.mem_filter.mp (List.mem_reverse.mp hc) |>.1
        have hcs : Entry.size c ≤ sizeL e.children := size_mem_le hmem
        have hse := size_eq_children e
        exact ih f2 (p ++ [c.name]) c (by omega) (by omega)

theorem specErrsE_congr (cfg : Config) : ∀ f1 : Nat, ∀ f2 p e,
    Entry.size e ≤ f1 → Entry.size e ≤ f2 →
    specErrsE cfg f1 p e = specErrsE cfg f2 p e := by
  intro f1
  induction f1 with
  | zero =>
    intro f2 p e h1 _
    have := entry_size_pos e
    omega
  | succ f1 ih =>
    intro f2 p e h1 h2
    have hpos := entry_size_pos e
    cases f2 with
    | zero => omega
    | succ f2 =>
      simp only [specErrsE]
      cases hl : e.listFail with
      | some m => rfl
      | none =>
        dsimp only
        congr 1
        refine congrArg List.flatten (List.map_congr_left ?_)
        intro c hc
        have hmem : c ∈ e.children :=
          List.mem_filter.mp (List.mem_reverse.mp hc) |>.1
        have hcs : Entry.size c ≤ sizeL e.children := size_mem_le hmem
        have hse := size_eq_children e
        exact ih f2 (p ++ [c.name]) c (by omega) (by omega)

theorem specFiles_of_listFail (cfg : Config) (p : List String) (e : Entry)
    (hl : e.listFail.isSome = true) : specFiles cfg p e = [] := by
  unfold specFiles
  have hpos := entry_size_pos e
  have hsz : Entry.size e = (Entry.size e - 1) + 1 := by omega
  rw [hsz]
  simp [specFilesE, hl]

theorem specErrs_of_listFail (cfg : Config) (p : List String) (e : Entry)
    (m : String) (hl : e.listFail = some m) : specErrs cfg p e = [(p, m)] := by
  unfold specErrs
  have hpos := entry_size_pos e
  have hsz : Entry.size e = (Entry.size e - 1) + 1 := by omega
  rw [hsz]
  simp [specErrsE, hl]

theorem specFiles_of_listable (cfg : Config) (p : List String) (e : Entry)
    (hl : e.listFail = none) :
    specFiles cfg p e =
      (e.children.filter (keptFile cfg)).map (fun c => p ++ [c.name]) ++
      ((e.children.filter (keptDir cfg)).reverse.map
        (fun c => specFiles cfg (p ++ [c.name]) c)).flatten := by
  unfold specFiles
  have hse := size_eq_children e
  have hsz : Entry.size e = sizeL e.children + 1 := by omega
  rw [hsz]
  simp only [specFilesE, hl, Option.isSome_none, Bool.false_eq_true, if_false]
  congr 1
  refine congrArg List.flatten (List.map_congr_left ?_)
  intro c hc
  have hmem : c ∈ e.children :=
    List.mem_filter.mp (List.mem_reverse.mp hc) |>.1
  have hcs : Entry.size c ≤ sizeL e.children := size_mem_le hmem
  exact specFilesE_congr cfg (sizeL e.children) (Entry.size c) (p ++ [c.name]) c
    hcs (le_refl _)

theorem specErrs_of_listable (cfg : Config) (p : List String) (e : Entry)
    (hl : e.listFail = none) :
    specErrs cfg p e =
      (if cfg.dryRun then []
       else (e.children.filter (keptFile cfg)).filterMap
         (fun c => c.moveFail.map (fun m => (p ++ [c.name], m)))) ++
      ((e.children.filter (keptDir cfg)).reverse.map
        (fun c => specErrs cfg (p ++ [c.name]) c)).flatten := by
  unfold specErrs
  have hse := size_eq_children e
  have hsz : Entry.size e = sizeL e.children + 1 := by omega
  rw [hsz]
  simp only [specErrsE, hl]
  congr 1
  refine congrArg List.flatten (List.map_congr_left ?_)
  intro c hc
  have hmem : c ∈ e.children :=
    List.mem_filter.mp (List.mem_reverse.mp hc) |>.1
  have hcs : Entry.size c ≤ sizeL e.children := size_mem_le hmem
  exact specErrsE_congr cfg (sizeL e.children) (Entry.size c) (p ++ [c.name]) c
    hcs (le_refl _)

/-! ## Equations and invariants of the walker loop -/

theorem loop_nil (cfg : Config) (rootPath : List String) (fuel : Nat) (st : St) :
    loop cfg rootPath fuel [] st = st := by
  cases fuel <;> rfl

theorem loop_listFail {e : Entry} {m : String} (hl : e.listFail = some m)
    (cfg : Config) (rootPath : List String) (fuel : Nat) (p : List String)
    (rest : List (List String × Entry)) (st : St) :
    loop cfg rootPath (fuel + 1) ((p, e) :: rest) st =
      loop cfg rootPath fuel rest { st with errors := st.errors ++ [(p, m)] } := by
  have heq : loop cfg rootPath (fuel + 1) ((p, e) :: rest) st =
      match e.listFail with
      | some msg =>
        loop cfg rootPath fuel rest { st with errors := st.errors ++ [(p, msg)] }
      | none =>
        loop cfg rootPath fuel
          (e.children.foldl (stepChild cfg rootPath p) (st, rest)).2
          (e.children.foldl (stepChild cfg rootPath p) (st, rest)).1 := rfl
  rw [heq, hl]

theorem loop_listable {e : Entry} (hl : e.listFail = none)
    (cfg : Config) (rootPath : List String) (fuel : Nat) (p : List String)
    (rest : List (List String × Entry)) (st : St) :
    loop cfg rootPath (fuel + 1) ((p, e) :: rest) st =
      loop cfg rootPath fuel
        (((e.children.filter (keptDir cfg)).map
            (fun c => (p ++ [c.name], c))).reverse ++ rest)
        (processFiles cfg rootPath p e.children st) := by
  have heq : loop cfg rootPath (fuel + 1) ((p, e) :: rest) st =
      match e.listFail with
      | some msg =>
        loop cfg rootPath fuel rest { st with errors := st.errors ++ [(p, msg)] }
      | none =>
        loop cfg rootPath fuel
          (e.children.foldl (stepChild cfg rootPath p) (st, rest)).2
          (e.children.foldl (stepChild cfg rootPath p) (st, rest)).1 := rfl
  rw [heq, hl]
  rw [foldl_stepChild cfg rootPath p e.children st rest]

theorem loop_visited (cfg : Config) (rootPath : List String) : ∀ fuel stack st,
    stackMeas stack ≤ fuel →
    (loop cfg rootPath fuel stack st).visited =
      st.visited ++ (stack.map (fun pe => specFiles cfg pe.1 pe.2)).flatten := by
  intro fuel
  induction fuel with
  | zero =>
    intro stack st h
    cases stack with
    | nil => simp [loop_nil]
    | cons pe rest =>
      exfalso
      have h1 := entry_size_pos pe.2
      rw [stackMeas_cons] at h
      omega
  | succ fuel ih =>
    intro stack st h
    cases stack with
    | nil => simp [loop_nil]
    | cons pe rest =>
      obtain ⟨p, e⟩ := pe
      rw [stackMeas_cons] at h
      have hpos := entry_size_pos e
      cases hl : e.listFail with
      | some m =>
        rw [loop_listFail hl, ih rest _ (by simp at h ⊢; omega)]
        rw [show ({ st with errors := st.errors ++ [(p, m)] } : St).visited =
          st.visited from rfl]
        rw [List.map_cons, List.flatten_cons,
          specFiles_of_listFail cfg p e (by rw [hl]; rfl)]
        simp
      | none =>
        rw [loop_listable hl]
        have hm2 : stackMeas ((((e.children.filter (keptDir cfg)).map
            (fun c => (p ++ [c.name], c))).reverse ++ rest)) ≤ fuel := by
          rw [stackMeas_append, stackMeas_pushed]
          have h2 := sizeL_filter_le (keptDir cfg) e.children
          have h3 := size_eq_children e
          simp at h
          omega
        rw [ih _ _ hm2, processFiles_visited]
        rw [List.map_cons, List.flatten_cons, specFiles_of_listable cfg p e hl]
        rw [List.map_append, List.flatten_append]
        rw [List.map_reverse, List.map_map, List.map_reverse]
        simp [List.append_assoc, Function.comp]
        rfl

theorem loop_errors (cfg : Config) (rootPath : List String) : ∀ fuel stack st,
    stackMeas stack ≤ fuel →
    (loop cfg rootPath fuel stack st).errors =
      st.errors ++ (stack.map (fun pe => specErrs cfg pe.1 pe.2)).flatten := by
  intro fuel
  induction fuel with
  | zero =>
    intro stack st h
    cases stack with
    | nil => simp [loop_nil]
    | cons pe rest =>
      exfalso
      have h1 := entry_size_pos pe.2
      rw [stackMeas_cons] at h
      omega
  | succ fuel ih =>
    intro stack st h
    cases stack with
    | nil => simp [loop_nil]
    | cons pe rest =>
      obtain ⟨p, e⟩ := pe
      rw [stackMeas_cons] at h
      have hpos := entry_size_pos e
      cases hl : e.listFail with
      | some m =>
        rw [loop_listFail hl, ih rest _ (by simp at h ⊢; omega)]
        rw [show ({ st with errors := st.errors ++ [(p, m)] } : St).errors =
          st.errors ++ [(p, m)] from rfl]
        rw [List.map_cons, List.flatten_cons, specErrs_of_listFail cfg p e m hl]
        simp [List.append_assoc]
      | none =>
        rw [loop_listable hl]
        have hm2 : stackMeas ((((e.children.filter (keptDir cfg)).map
            (fun c => (p ++ [c.name], c))).reverse ++ rest)) ≤ fuel := by
          rw [stackMeas_append, stackMeas_pushed]
          have h2 := sizeL_filter_le (keptDir cfg) e.children
          have h3 := size_eq_children e
          simp at h
          omega
        rw [ih _ _ hm2, processFiles_errors]
        rw [List.map_cons, List.flatten_cons, specErrs_of_listable cfg p e hl]
        rw [List.map_append, List.flatten_append]
        rw [List.map_reverse, List.map_map, List.map_reverse]
        simp [List.append_assoc, Function.comp]
        rfl

theorem loop_truncated (cfg : Config) (rootPath : List String) : ∀ fuel stack st,
    stackMeas stack ≤ fuel →
    (loop cfg rootPath fuel stack st).truncated = st.truncated := by
  intro fuel
  induction fuel with
  | zero =>
    intro stack st h
    cases stack with
    | nil => simp [loop_nil]
    | cons pe rest =>
      exfalso
      have h1 := entry_size_pos pe.2
      rw [stackMeas_cons] at h
      omega
  | succ fuel ih =>
    intro stack st h
    cases stack with
    | nil => simp [loop_nil]
    | cons pe rest =>
      obtain ⟨p, e⟩ := pe
      rw [stackMeas_cons] at h
      have hpos := entry_size_pos e
      cases hl : e.listFail with
      | some m =>
        rw [loop_listFail hl, ih rest _ (by simp at h ⊢; omega)]
      | none =>
        rw [loop_listable hl]
        have hm2 : stackMeas ((((e.children.filter (keptDir cfg)).map
            (fun c => (p ++ [c.name], c))).reverse ++ rest)) ≤ fuel := by
          rw [stackMeas_append, stackMeas_pushed]
          have h2 := sizeL_filter_le (keptDir cfg) e.children
          have h3 := size_eq_children e
          simp at h
          omega
        rw [ih _ _ hm2, processFiles_truncated]

theorem loop_sumInv (cfg : Config) (rootPath : List String) : ∀ fuel stack st,
    sumCounts st.summary + st.moveFailCount = st.processed →
    sumCounts (loop cfg rootPath fuel stack st).summary +
      (loop cfg rootPath fuel stack st).moveFailCount =
      (loop cfg rootPath fuel stack st).processed := by
  intro fuel
  induction fuel with
  | zero =>
    intro stack st h
    cases stack with
    | nil => simpa [loop_nil] using h
    | cons pe rest => simpa [loop] using h
  | succ fuel ih =>
    intro stack st h
    cases stack with
    | nil => simpa [loop_nil] using h
    | cons pe rest =>
      obtain ⟨p, e⟩ := pe
      cases hl : e.listFail with
      | some m =>
        rw [loop_listFail hl]
        exact ih rest _ (by simpa using h)
      | none =>
        rw [loop_listable hl]
        exact ih _ _ (processFiles_sumInv cfg rootPath p e.children st h)

theorem loop_pv (cfg : Config) (rootPath : List String) : ∀ fuel stack st,
    st.processed = st.visited.length →
    (loop cfg rootPath fuel stack st).processed =
      (loop cfg rootPath fuel stack st).visited.length := by
  intro fuel
  induction fuel with
  | zero =>
    intro stack st h
    cases stack with
    | nil => simpa [loop_nil] using h
    | cons pe rest => simpa [loop] using h
  | succ fuel ih =>
    intro stack st h
    cases stack with
    | nil => simpa [loop_nil] using h
    | cons pe rest =>
      obtain ⟨p, e⟩ := pe
      cases hl : e.listFail with
      | some m =>
        rw [loop_listFail hl]
        exact ih rest _ (by simpa using h)
      | none =>
        rw [loop_listable hl]
        exact ih _ _ (processFiles_pv cfg rootPath p e.children st h)

theorem loop_moves_dry (cfg : Config) (rootPath : List String)
    (hd : cfg.dryRun = true) : ∀ fuel stack st,
    (loop cfg rootPath fuel stack st).moves = st.moves := by
  intro fuel
  induction fuel with
  | zero =>
    intro stack st
    cases stack with
    | nil => simp [loop_nil]
    | cons pe rest => simp [loop]
  | succ fuel ih =>
    intro stack st
    cases stack with
    | nil => simp [loop_nil]
    | cons pe rest =>
      obtain ⟨p, e⟩ := pe
      cases hl : e.listFail with
      | some m =>
        rw [loop_listFail hl, ih]
      | none =>
        rw [loop_listable hl, ih, processFiles_moves_dry cfg rootPath p e.children hd]

theorem loop_mfc_dry (cfg : Config) (rootPath : List String)
    (hd : cfg.dryRun = true) : ∀ fuel stack st,
    (loop cfg rootPath fuel stack st).moveFailCount = st.moveFailCount := by
  intro fuel
  induction fuel with
  | zero =>
    intro stack st
    cases stack with
    | nil => simp [loop_nil]
    | cons pe rest => simp [loop]
  | succ fuel ih =>
    intro stack st
    cases stack with
    | nil => simp [loop_nil]
    | cons pe rest =>
      obtain ⟨p, e⟩ := pe
      cases hl : e.listFail with
      | some m =>
        rw [loop_listFail hl, ih]
      | none =>
        rw [loop_listable hl, ih, processFiles_mfc_dry cfg rootPath p e.children hd]

theorem loop_moves_src (cfg : Config) (rootPath : List String) : ∀ fuel stack st,
    (∀ sd ∈ st.moves, sd.1 ∈ st.visited) →
    ∀ sd ∈ (loop cfg rootPath fuel stack st).moves,
      sd.1 ∈ (loop cfg rootPath fuel stack st).visited := by
  intro fuel
  induction fuel with
  | zero =>
    intro stack st h
    cases stack with
    | nil => simpa [loop_nil] using h
    | cons pe rest => simpa [loop] using h
  | succ fuel ih =>
    intro stack st h
    cases stack with
    | nil => simpa [loop_nil] using h
    | cons pe rest =>
      obtain ⟨p, e⟩ := pe
      cases hl : e.listFail with
      | some m =>
        rw [loop_listFail hl]
        exact ih rest _ (by simpa using h)
      | none =>
        rw [loop_listable hl]
        exact ih _ _ (processFiles_moves_src cfg rootPath p e.children st h)

/-! ## Well-formed trees and uniqueness of visited paths -/

mutual

/-- A directory tree is well formed when the names of the children of every
directory are pairwise distinct — as they are on a real filesystem. -/
def wfE : Entry → Bool
  | .mk _ _ _ _ _ cs => decide ((cs.map Entry.name).Nodup) && wfL cs

def wfL : List Entry → Bool
  | [] => true
  | c :: cs => wfE c && wfL cs

end

theorem wfE_children {e : Entry} (h : wfE e = true) :
    (e.children.map Entry.name).Nodup ∧ wfL e.children = true := by
  cases e with
  | mk n k s lf mf cs =>
    have h2 := (Bool.and_eq_true _ _).mp h
    exact ⟨of_decide_eq_true h2.1, h2.2⟩

theorem wfL_mem : ∀ {cs : List Entry}, wfL cs = true → ∀ {c : Entry}, c ∈ cs →
    wfE c = true := by
  intro cs
  induction cs with
  | nil => intro _ c hc; cases hc
  | cons a as ih =>
    intro h c hc
    have h2 := (Bool.and_eq_true _ _).mp h
    rcases List.mem_cons.mp hc with rfl | hm
    · exact h2.1
    · exact ih h2.2 hm

theorem keptDir_not_catLabel {cfg : Config} {e : Entry}
    (h : keptDir cfg e = true) : isCatLabel e.name = false := by
  unfold keptDir at h
  have h2 := (Bool.and_eq_true _ _).mp h
  have h3 := h2.2
  cases hc : isCatLabel e.name
  · rfl
  · rw [hc] at h3
    simp at h3

/-- Every path listed by `specFilesE` extends the directory path `p` by some
(possibly empty) chain of directory names, none of which is a category
label, followed by a file name. -/
theorem mem_specFilesE_decomp (cfg : Config) : ∀ fuel : Nat, ∀ p e q,
    q ∈ specFilesE cfg fuel p e →
    ∃ mid f, q = p ++ mid ++ [f] ∧ ∀ d ∈ mid, isCatLabel d = false := by
  intro fuel
  induction fuel with
  | zero =>
    intro p e q hq
    simp [specFilesE] at hq
  | succ fuel ih =>
    intro p e q hq
    simp only [specFilesE] at hq
    by_cases hl : e.listFail.isSome = true
    · simp [hl] at hq
    · rw [if_neg hl] at hq
      rcases List.mem_append.mp hq with h1 | h2
      · rw [List.mem_map] at h1
        obtain ⟨c, hc, rfl⟩ := h1
        exact ⟨[], c.name, by simp, by simp⟩
      · rw [List.mem_flatten] at h2
        obtain ⟨lsub, hlsub, hqsub⟩ := h2
        rw [List.mem_map] at hlsub
        obtain ⟨c, hc, rfl⟩ := hlsub
        obtain ⟨mid, f, rfl, hmid⟩ := ih (p ++ [c.name]) c q hqsub
        have hcd : keptDir cfg c = true :=
          (List.mem_filter.mp (List.mem_reverse.mp hc)).2
        refine ⟨c.name :: mid, f, by simp [List.append_assoc], ?_⟩
        intro d hd
        rcases List.mem_cons.mp hd with rfl | hdm
        · exact keptDir_not_catLabel hcd
        · exact hmid d hdm

theorem specFilesE_nodup (cfg : Config) : ∀ fuel : Nat, ∀ p e,
    wfE e = true → (specFilesE cfg fuel p e).Nodup := by
  intro fuel
  induction fuel with
  | zero =>
    intro p e _
    simp [specFilesE]
  | succ fuel ih =>
    intro p e hwf
    simp only [specFilesE]
    by_cases hl : e.listFail.isSome = true
    · simp [hl]
    · rw [if_neg hl]
      obtain ⟨hnames, hwfl⟩ := wfE_children hwf
      have hfn : ((e.children.filter (keptFile cfg)).map Entry.name).Nodup :=
        ((List.filter_sublist e.children).map Entry.name).nodup hnames
      have hdn : ((e.children.filter (keptDir cfg)).map Entry.name).Nodup :=
        ((List.filter_sublist e.children).map Entry.name).nodup hnames
      refine List.Nodup.append ?_ ?_ ?_
      · have hmm : (e.children.filter (keptFile cfg)).map (fun c => p ++ [c.name]) =
            ((e.children.filter (keptFile cfg)).map Entry.name).map
              (fun n => p ++ [n]) := by
          rw [List.map_map]
          rfl
        rw [hmm]
        refine hfn.map ?_
        intro a b hab
        have h2 := List.append_cancel_left hab
        simpa using h2
      · rw [List.nodup_flatten]
        constructor
        · intro lsub hlsub
          rw [List.mem_map] at hlsub
          obtain ⟨c, hc, rfl⟩ := hlsub
          have hcm : c ∈ e.children :=
            (List.mem_filter.mp (List.mem_reverse.mp hc)).1
          exact ih (p ++ [c.name]) c (wfL_mem hwfl hcm)
        · rw [List.pairwise_map]
          have hrevn : (((e.children.filter (keptDir cfg)).reverse).map
              Entry.name).Nodup := by
            rw [List.map_reverse]
            exact List.nodup_reverse.mpr hdn
          have hpw : ((e.children.filter (keptDir cfg)).reverse).Pairwise
              (fun a b => a.name ≠ b.name) := List.pairwise_map.mp hrevn
          refine hpw.imp ?_
          intro a b hne
          intro q hqa hqb
          obtain ⟨mid1, f1, hq1, _⟩ :=
            mem_specFilesE_decomp cfg fuel (p ++ [a.name]) a q hqa
          obtain ⟨mid2, f2, hq2, _⟩ :=
            mem_specFilesE_decomp cfg fuel (p ++ [b.name]) b q hqb
          rw [hq1] at hq2
          rw [List.append_assoc, List.append_assoc, List.append_assoc,
            List.append_assoc] at hq2
          have h3 := List.append_cancel_left hq2
          simp at h3
          exact hne h3.1
      · intro q hqf hqd
        rw [List.mem_map] at hqf
        obtain ⟨c, hc, rfl⟩ := hqf
        rw [List.mem_flatten] at hqd
        obtain ⟨lsub, hlsub, hqsub⟩ := hqd
        rw [List.mem_map] at hlsub
        obtain ⟨c', hc', rfl⟩ := hlsub
        obtain ⟨mid, f, hq, _⟩ :=
          mem_specFilesE_decomp cfg fuel (p ++ [c'.name]) c' _ hqsub
        have hlen := congrArg List.length hq
        simp [List.length_append] at hlen

theorem specFiles_nodup (cfg : Config) (p : List String) (e : Entry)
    (hwf : wfE e = true) : (specFiles cfg p e).Nodup :=
  specFilesE_nodup cfg (Entry.size e) p e hwf

/-! ## Characterisation of a completed run -/

theorem organize_ok_inv {cfg : Config} {rootPath : List String} {r : Entry}
    {out : St} (h : organize_iterative cfg rootPath (some r) = .ok out) :
    r.kind = EKind.dir ∧
    out = loop cfg rootPath (Entry.size r) [(rootPath, r)] (initSt r) := by
  have heq : organize_iterative cfg rootPath (some r) =
      if r.kind = EKind.dir then
        .ok (loop cfg rootPath (Entry.size r) [(rootPath, r)] (initSt r))
      else .error "Path does not exist or is not a directory" := rfl
  by_cases hk : r.kind = EKind.dir
  · rw [heq, if_pos hk] at h
    exact ⟨hk, (Except.ok.inj h).symm⟩
  · rw [heq, if_neg hk] at h
    cases h

theorem stackMeas_single (p : List String) (r : Entry) :
    stackMeas [(p, r)] = Entry.size r := by
  show sizeL [r] = Entry.size r
  show Entry.size r + sizeL [] = Entry.size r
  show Entry.size r + 0 = Entry.size r
  omega

/-- What a completed run of `organize_iterative` produces: the visited files
and recorded errors are exactly the reference lists read off the tree, the
processed counter counts the visited files, the summary counts plus the
failed moves account for every processed file, and the walker's fuel never
ran out. -/
theorem organize_out_char {cfg : Config} {rootPath : List String} {r : Entry}
    {out : St} (h : organize_iterative cfg rootPath (some r) = .ok out) :
    out.visited = specFiles cfg rootPath r ∧
    out.errors = specErrs cfg rootPath r ∧
    out.processed = out.visited.length ∧
    sumCounts out.summary + out.moveFailCount = out.processed ∧
    out.truncated = false := by
  obtain ⟨hk, hout⟩ := organize_ok_inv h
  subst hout
  have hm : stackMeas [(rootPath, r)] ≤ Entry.size r := by
    rw [stackMeas_single]
  refine ⟨?_, ?_, ?_, ?_, ?_⟩
  · rw [loop_visited cfg rootPath _ _ _ hm]
    show ([] : List (List String)) ++ (specFiles cfg rootPath r ++ []) = _
    simp
  · rw [loop_errors cfg rootPath _ _ _ hm]
    show ([] : List (List String × String)) ++ (specErrs cfg rootPath r ++ []) = _
    simp
  · exact loop_pv cfg rootPath _ _ _ rfl
  · exact loop_sumInv cfg rootPath _ _ _ rfl
  · rw [loop_truncated cfg rootPath _ _ _ hm]
    rfl

/-! ## Claims about the walker -/

/-- A dry run on a root holding a single `a.jpg`: no category directory
exists beforehand, yet the run creates `Images` — the `mkdir` at line 77 of
the source runs before the `dry_run` test.  This refutes the claim that a
dry run leaves the filesystem completely unchanged. -/
def c2root : Entry :=
  .mk "root" EKind.dir false none none [.mk "a.jpg" EKind.file false none none []]

def c2cfg : Config := ⟨true, false, false⟩

def c2out : St :=
  match organize_iterative c2cfg ["R"] (some c2root) with
  | .ok st => st
  | .error _ => initSt c2root

/-- Claim C2, counterexample: with dry-run enabled on a root containing one
`a.jpg` and no pre-existing category folder, the run completes and creates
the directory `Images`, so the filesystem is not left unchanged. -/
theorem claim_c2_counterexample :
    organize_iterative c2cfg ["R"] (some c2root) = .ok c2out ∧
    c2cfg.dryRun = true ∧
    c2out.created = ["Images"] := by
  refine ⟨rfl, rfl, by decide⟩

/-- Claim C2 (amended): with dry-run enabled, no file is moved and no move
can fail, and the per-category summary still counts every intended move
(the counts sum to the number of files inspected); however the destination
category directories are still created, as the counterexample shows, since
the `mkdir` precedes the dry-run branch. -/
theorem claim_c2 (cfg : Config) (rootPath : List String) (r : Entry) (out : St)
    (hdry : cfg.dryRun = true)
    (h : organize_iterative cfg rootPath (some r) = .ok out) :
    out.moves = [] ∧ out.moveFailCount = 0 ∧
    sumCounts out.summary = out.processed := by
  obtain ⟨hk, hout⟩ := organize_ok_inv h
  subst hout
  have hmv := loop_moves_dry cfg rootPath hdry (Entry.size r) [(rootPath, r)] (initSt r)
  have hmf := loop_mfc_dry cfg rootPath hdry (Entry.size r) [(rootPath, r)] (initSt r)
  have hsum := loop_sumInv cfg rootPath (Entry.size r) [(rootPath, r)] (initSt r) rfl
  refine ⟨by rw [hmv]; rfl, by rw [hmf]; rfl, ?_⟩
  rw [hmf] at hsum
  rw [show (initSt r).moveFailCount = 0 from rfl] at hsum
  show sumCounts (loop cfg rootPath (Entry.size r) [(rootPath, r)] (initSt r)).summary =
    (loop cfg rootPath (Entry.size r) [(rootPath, r)] (initSt r)).processed
  omega

theorem claim_c2_witness :
    c2out.moves = [] ∧ c2out.moveFailCount = 0 ∧
    sumCounts c2out.summary = c2out.processed :=
  claim_c2 c2cfg ["R"] c2root c2out rfl rfl

/-- A non-dry run on a root holding `Images/x.png` (inside a category
folder) and `bad.txt` whose move fails: `x.png` passes the hidden/symlink
filters but is never visited, and the single bucket sum is 0 while one file
was inspected. -/
def c3root : Entry := .mk "root" EKind.dir false none none [
  .mk "Images" EKind.dir false none none
    [.mk "x.png" EKind.file false none none []],
  .mk "bad.txt" EKind.file false none (some "boom") []]

def c3cfg : Config := ⟨false, false, false⟩

def c3out : St :=
  match organize_iterative c3cfg ["R"] (some c3root) with
  | .ok st => st
  | .error _ => initSt c3root

/-- Claim C3, counterexample: in this run the file `x.png` under the
category folder `Images` passes the hidden/symlink filters yet is not
visited, and the per-category bucket counts sum to 0 while the reported
total of files inspected is 1 (the move of `bad.txt` failed after being
counted).  Both parts of the claim as stated fail. -/
theorem claim_c3_counterexample :
    organize_iterative c3cfg ["R"] (some c3root) = .ok c3out ∧
    keepEntry c3cfg (.mk "x.png" EKind.file false none none []) = true ∧
    (["R", "Images", "x.png"] ∉ c3out.visited) ∧
    sumCounts c3out.summary = 0 ∧ c3out.processed = 1 := by
  refine ⟨rfl, by decide, by decide, by decide, by decide⟩

/-- Claim C3 (amended): in every completed run, the visited files are
exactly those reachable through listable, filter-passing, non-category-named
directories (the reference list `specFiles`); on a well-formed tree each
such file is visited exactly once (the visited list has no duplicates); the
reported total of files inspected equals the number of visited files; and
the per-category bucket counts sum to that total minus the number of failed
moves — hence equal to it whenever no move fails, in particular in dry
runs. -/
theorem claim_c3 (cfg : Config) (rootPath : List String) (r : Entry) (out : St)
    (h : organize_iterative cfg rootPath (some r) = .ok out) :
    out.visited = specFiles cfg rootPath r ∧
    (wfE r = true → out.visited.Nodup) ∧
    out.processed = out.visited.length ∧
    sumCounts out.summary + out.moveFailCount = out.processed := by
  obtain ⟨h1, _, h3, h4, _⟩ := organize_out_char h
  refine ⟨h1, ?_, h3, h4⟩
  intro hwf
  rw [h1]
  exact specFiles_nodup cfg rootPath r hwf

/-- The end-to-end scenario of the specification: `a.jpg`, `b.txt`,
`c.unknownext` and `sub/d.mp3` under the root. -/
def c3egRoot : Entry := .mk "root" EKind.dir false none none [
  .mk "a.jpg" EKind.file false none none [],
  .mk "b.txt" EKind.file false none none [],
  .mk "c.unknownext" EKind.file false none none [],
  .mk "sub" EKind.dir false none none
    [.mk "d.mp3" EKind.file false none none []]]

def c3egOut : St :=
  match organize_iterative c3cfg ["R"] (some c3egRoot) with
  | .ok st => st
  | .error _ => initSt c3egRoot

theorem claim_c3_witness :
    c3egOut.visited = specFiles c3cfg ["R"] c3egRoot ∧
    c3egOut.visited.Nodup ∧
    c3egOut.processed = c3egOut.visited.length ∧
    sumCounts c3egOut.summary + c3egOut.moveFailCount = c3egOut.processed := by
  have hc := claim_c3 c3cfg ["R"] c3egRoot c3egOut rfl
  exact ⟨hc.1, hc.2.1 (by decide), hc.2.2.1, hc.2.2.2⟩

/-- Claim C5: a directory entry named like a category label (`Images`,
`Documents`, `Audio`, `Video`, `Archives`, `Code` or `Others`) is skipped by
the walker: `stepChild` neither pushes it onto the work-list nor changes the
state.  Consequently every visited file path, and every performed move's
source path, extends the root path by non-category directory names only —
files already inside a category folder are never moved, so a second run
cannot nest category folders. -/
theorem claim_c5 (cfg : Config) (rootPath : List String) :
    (∀ (dirPath : List String) (acc : St × List (List String × Entry))
        (e : Entry), e.kind = EKind.dir → isCatLabel e.name = true →
      stepChild cfg rootPath dirPath acc e = acc) ∧
    (∀ (r : Entry) (out : St),
      organize_iterative cfg rootPath (some r) = .ok out →
      (∀ q ∈ out.visited, ∃ mid f, q = rootPath ++ mid ++ [f] ∧
        ∀ d ∈ mid, isCatLabel d = false) ∧
      (∀ sd ∈ out.moves, ∃ mid f, sd.1 = rootPath ++ mid ++ [f] ∧
        ∀ d ∈ mid, isCatLabel d = false)) := by
  constructor
  · intro dirPath acc e hk hcat
    rw [stepChild_cases]
    have hf : keptFile cfg e = false := by
      unfold keptFile
      rw [hk]
      simp
    have hd : keptDir cfg e = false := by
      unfold keptDir
      rw [hcat]
      simp
    rw [hf, hd]
    simp
  · intro r out h
    have hv := (organize_out_char h).1
    have hsrc : ∀ sd ∈ out.moves, sd.1 ∈ out.visited := by
      obtain ⟨hk, hout⟩ := organize_ok_inv h
      subst hout
      refine loop_moves_src cfg rootPath (Entry.size r) [(rootPath, r)]
        (initSt r) ?_
      intro sd hsd
      simp [initSt] at hsd
    constructor
    · intro q hq
      rw [hv] at hq
      exact mem_specFilesE_decomp cfg (Entry.size r) rootPath r q hq
    · intro sd hsd
      have hmem := hsrc sd hsd
      rw [hv] at hmem
      exact mem_specFilesE_decomp cfg (Entry.size r) rootPath r sd.1 hmem

theorem claim_c5_witness :
    stepChild c3cfg ["R"] ["R"] (initSt c3egRoot, [])
      (.mk "Images" EKind.dir false none none []) = (initSt c3egRoot, []) :=
  (claim_c5 c3cfg ["R"]).1 ["R"] (initSt c3egRoot, [])
    (.mk "Images" EKind.dir false none none []) rfl (by decide)

/-- Claim C7: in every completed run the recorded errors are exactly the
reference list `specErrs` — one `(path, message)` pair per traversed
directory whose listing raises, and (outside dry-run) one per kept file
whose move raises — and the run still visits every file of `specFiles`
(listing or move failures never abort the traversal: siblings and the
remaining work-list are still processed) and completes, producing the
summary. -/
theorem claim_c7 (cfg : Config) (rootPath : List String) (r : Entry) (out : St)
    (h : organize_iterative cfg rootPath (some r) = .ok out) :
    out.errors = specErrs cfg rootPath r ∧
    out.visited = specFiles cfg rootPath r ∧
    out.truncated = false := by
  obtain ⟨h1, h2, _, _, h5⟩ := organize_out_char h
  exact ⟨h2, h1, h5⟩

/-- A tree with an unlistable directory (with a sibling file inside the
work-list after it) and a file whose move fails. -/
def c7root : Entry := .mk "root" EKind.dir false none none [
  .mk "locked" EKind.dir false (some "PermissionError: denied") none
    [.mk "y.png" EKind.file false none none []],
  .mk "bad.txt" EKind.file false none (some "boom") [],
  .mk "ok.png" EKind.file false none none []]

def c7out : St :=
  match organize_iterative c3cfg ["R"] (some c7root) with
  | .ok st => st
  | .error _ => initSt c7root

theorem claim_c7_witness :
    c7out.errors = [(["R", "bad.txt"], "boom"),
      (["R", "locked"], "PermissionError: denied")] ∧
    c7out.visited = [["R", "bad.txt"], ["R", "ok.png"]] := by
  have hc := claim_c7 c3cfg ["R"] c7root c7out rfl
  constructor
  · rw [hc.1]
    decide
  · rw [hc.2.1]
    decide
